import Mathlib

/-!
Verification of `wa2_gen_map.py`, a character-mapping-table generator.

The script compares two text files position by position, builds a
character-to-character mapping (`char_map`) together with a record of
conflicting targets (`conflict_chars`), and serializes the mapping either
as JSON (`json.dump(..., ensure_ascii=False, indent=2)`) or as a Python
dict literal with `repr`-escaped single-character keys and values.

Python dictionaries are embedded as association lists with in-place
update semantics, Python sets as duplicate-free lists with
insertion-order extension, and the I/O boundary of
`create_character_mapping` as explicit `Option` inputs (file contents)
and an `Option` output (the written file, `none` when no file was
created).
-/

/-- Lookup in an association list, mirroring Python `d[k]` / `k in d`. -/
def dictLookup {β : Type} : List (Char × β) → Char → Option β
  | [], _ => none
  | (k, v) :: rest, c => if k = c then some v else dictLookup rest c

/-- Update of an association list, mirroring Python `d[k] = v`:
the value of an existing key is replaced in place, a new key is appended
(Python dicts preserve insertion order). -/
def dictInsert {β : Type} : List (Char × β) → Char → β → List (Char × β)
  | [], c, v => [(c, v)]
  | (k, w) :: rest, c, v =>
    if k = c then (c, v) :: rest else (k, w) :: dictInsert rest c v

/-- Python `s.add(x)` on a set represented as a duplicate-free list. -/
def setAdd (s : List Char) (c : Char) : List Char :=
  if c ∈ s then s else s ++ [c]

/-- The mapper state: `char_map` and `conflict_chars` of
`create_character_mapping` (src/wa2_gen_map.py lines 43-44). -/
structure MapState where
  charMap : List (Char × Char)
  conflicts : List (Char × List Char)
deriving DecidableEq, Repr

/-- The empty initial state (`char_map = {}`, `conflict_chars = {}`). -/
def initState : MapState := ⟨[], []⟩

/-- One iteration of the loop of `create_character_mapping`
(src/wa2_gen_map.py lines 49-66) on the aligned pair `ab`:
skip if either character is a newline; if the source character is
already mapped to a different target, record the conflict and leave the
mapping unchanged; otherwise assign `char_map[char_a] = char_b`. -/
def processIndex (st : MapState) (ab : Char × Char) : MapState :=
  if ab.1 = '\n' then st
  else if ab.2 = '\n' then st
  else
    match dictLookup st.charMap ab.1 with
    | some v =>
      if v ≠ ab.2 then
        let cur :=
          match dictLookup st.conflicts ab.1 with
          | none => [v]
          | some s => s
        { st with conflicts := dictInsert st.conflicts ab.1 (setAdd cur ab.2) }
      else
        { st with charMap := dictInsert st.charMap ab.1 ab.2 }
    | none => { st with charMap := dictInsert st.charMap ab.1 ab.2 }

/-- Run the mapper loop over a list of aligned character pairs. -/
def runMapper (st : MapState) (pairs : List (Char × Char)) : MapState :=
  pairs.foldl processIndex st

/-- The mapper of `create_character_mapping`: the loop
`for i in range(min(len(content_a), len(content_b)))` walks exactly the
aligned pairs `zip A B`. -/
def buildMapping (A B : List Char) : MapState :=
  runMapper initState (A.zip B)

/-- The opening-brace character, kept as a named constant. -/
def lbrace : Char := Char.ofNat 123

/-- The closing-brace character, kept as a named constant. -/
def rbrace : Char := Char.ofNat 125

/-- Whether the file-length warning of src/wa2_gen_map.py lines 36-40 is
printed: exactly when the two contents differ in length. -/
def lengthWarning (A B : List Char) : Bool := A.length != B.length

/-! ## JSON serialization (`json.dump(char_map, ..., ensure_ascii=False, indent=2)`) -/

/-- Modelled from the Python standard library: the escaping that
`json.dump` with `ensure_ascii=False` applies to one character of a
string: backslash, double quote and the control characters below U+0020
are escaped (with the conventional short forms for backspace, form feed,
newline, carriage return and tab, and `\u00XX` otherwise); every other
character is emitted literally. -/
def jsonEscChar (c : Char) : List Char :=
  if c = '\\' then ['\\', '\\']
  else if c = '"' then ['\\', '"']
  else if c = '\x08' then ['\\', 'b']
  else if c = '\x0c' then ['\\', 'f']
  else if c = '\n' then ['\\', 'n']
  else if c = '\r' then ['\\', 'r']
  else if c = '\t' then ['\\', 't']
  else if c.toNat < 0x20 then
    ['\\', 'u', '0', '0', Nat.digitChar (c.toNat / 16), Nat.digitChar (c.toNat % 16)]
  else [c]

/-- One member of the emitted JSON object at indent level 2:
`  "<key>": "<value>"`. -/
def jsonEntry (kv : Char × Char) : List Char :=
  [' ', ' ', '"'] ++ jsonEscChar kv.1 ++ ['"', ':', ' ', '"'] ++ jsonEscChar kv.2 ++ ['"']

/-- The members of a nonempty emitted JSON object, separated by `,\n`. -/
def jsonMembers : Char × Char → List (Char × Char) → List Char
  | kv, [] => jsonEntry kv
  | kv, kv' :: rest => jsonEntry kv ++ [',', '\n'] ++ jsonMembers kv' rest

/-- The text `json.dump(char_map, output_file, ensure_ascii=False, indent=2)`
writes for the association list `m` (src/wa2_gen_map.py line 78). -/
def jsonDump : List (Char × Char) → List Char
  | [] => [lbrace, rbrace]
  | kv :: rest => lbrace :: '\n' :: jsonMembers kv rest ++ ['\n', rbrace]

/-! ## Python-literal serialization (the `format_type == "python"` branch) -/

/-- Modelled from the Python builtin `repr` applied to a one-character
string and stripped of its quotes, as in `repr(char)[1:-1]`
(src/wa2_gen_map.py lines 83-84): backslash, tab, newline and carriage
return get their two-character escapes, other unprintable ASCII
characters become `\xXX`; everything else — including the single- and
double-quote characters — is returned unchanged (for a one-character
string, `repr` only backslash-escapes the quote it itself chooses as
delimiter, which is never the character being emitted). Unicode
printability above ASCII is simplified to printable; no character
exercised below falls in the simplified region. -/
def pyReprBody (c : Char) : List Char :=
  if c = '\\' then ['\\', '\\']
  else if c = '\t' then ['\\', 't']
  else if c = '\n' then ['\\', 'n']
  else if c = '\r' then ['\\', 'r']
  else if c.toNat < 0x20 ∨ c.toNat = 0x7f then
    ['\\', 'x', Nat.digitChar (c.toNat / 16), Nat.digitChar (c.toNat % 16)]
  else [c]

/-- Lexicographic comparison of pairs, as Python `sorted` compares
`(key, value)` tuples from `char_map.items()`. -/
def pairLe (p q : Char × Char) : Bool :=
  decide (p.1 < q.1) || (p.1 == q.1 && decide (p.2 ≤ q.2))

/-- Insert into a sorted list, keeping order. -/
def insertSorted (p : Char × Char) : List (Char × Char) → List (Char × Char)
  | [] => [p]
  | q :: rest => if pairLe p q then p :: q :: rest else q :: insertSorted p rest

/-- Modelled from the Python builtin `sorted` on `char_map.items()`
(src/wa2_gen_map.py line 82): the items in ascending lexicographic
order (stable; keys are unique in a dict, so ties do not arise). -/
def sortPairs : List (Char × Char) → List (Char × Char)
  | [] => []
  | p :: rest => insertSorted p (sortPairs rest)

/-- One emitted line `    "<key>": "<value>",` of the Python-literal
format (src/wa2_gen_map.py line 85). -/
def pythonLine (kv : Char × Char) : List Char :=
  "    \"".toList ++ pyReprBody kv.1 ++ "\": \"".toList ++ pyReprBody kv.2 ++ "\",\n".toList

/-- The text the `format_type == "python"` branch writes
(src/wa2_gen_map.py lines 80-86): a comment header, `char_map = `,
then one line per mapping in sorted order, then the closing brace. -/
def pythonDump (m : List (Char × Char)) : List Char :=
  "# 字符映射表\n".toList ++ "char_map = ".toList ++ [lbrace, '\n'] ++
    (List.map pythonLine (sortPairs m)).flatten ++ [rbrace, '\n']

/-- Whether `pat` occurs as a contiguous subsequence of `s`. -/
def containsSeq (pat : List Char) : List Char → Bool
  | [] => pat.isPrefixOf []
  | c :: rest => pat.isPrefixOf (c :: rest) || containsSeq pat rest

/-! ## The whole operation, with the I/O boundary made explicit -/

/-- What `create_character_mapping` writes inside `open(output_path, "w")`
(src/wa2_gen_map.py lines 76-86): the JSON dump, the Python-literal dump,
or nothing at all for any other `format_type`. -/
def serializeOutput (formatType : String) (charMap : List (Char × Char)) : List Char :=
  if formatType = "json" then jsonDump charMap
  else if formatType = "python" then pythonDump charMap
  else []

/-- Observable outcome of one invocation: the returned boolean and the
content of the output file (`none` when the file was never created). -/
structure ProgResult where
  success : Bool
  output : Option (List Char)
deriving DecidableEq, Repr

/-- `create_character_mapping` (src/wa2_gen_map.py lines 14-93) with the
I/O boundary made explicit: `contentA`/`contentB` are the results of the
two reads (`none` when opening or decoding raises, making the
`except` at lines 31-33 return `False` before any mapping is built and
before the output file is opened), and `writeOk` tells whether opening
the output for writing succeeds (the `except` at lines 91-93 returns
`False`). On the success path the file is created and holds
`serializeOutput`, and the function returns `True`. -/
def createCharacterMapping (contentA contentB : Option (List Char))
    (writeOk : Bool) (formatType : String) : ProgResult :=
  match contentA, contentB with
  | none, _ => ⟨false, none⟩
  | some _, none => ⟨false, none⟩
  | some A, some B =>
    if writeOk then
      ⟨true, some (serializeOutput formatType (buildMapping A B).charMap)⟩
    else ⟨false, none⟩

/-! ## A JSON reader for the emitted fragment

Modelled from the Python standard library `json.load`, restricted to the
fragment `json.dump` emits for a dict of strings: a single object whose
keys and values are strings, with JSON whitespace between tokens and
nothing after the closing brace. String escapes are decoded exactly as
by `json.load` (strict mode: raw control characters inside a string are
rejected); code points are represented as Lean `Char`. -/

/-- JSON whitespace (space, tab, line feed, carriage return). -/
def isWs (c : Char) : Bool := c == ' ' || c == '\t' || c == '\n' || c == '\r'

/-- Drop leading JSON whitespace. -/
def skipWs : List Char → List Char
  | [] => []
  | c :: rest => if isWs c then skipWs rest else c :: rest

/-- Value of one hexadecimal digit. -/
def parseHexDigit (c : Char) : Option Nat :=
  if '0' ≤ c ∧ c ≤ '9' then some (c.toNat - 48)
  else if 'a' ≤ c ∧ c ≤ 'f' then some (c.toNat - 87)
  else if 'A' ≤ c ∧ c ≤ 'F' then some (c.toNat - 55)
  else none

/-- The single-character JSON string escapes accepted after a backslash. -/
def escDecode (e : Char) : Option Char :=
  if e = '"' then some '"'
  else if e = '\\' then some '\\'
  else if e = '/' then some '/'
  else if e = 'b' then some '\x08'
  else if e = 'f' then some '\x0c'
  else if e = 'n' then some '\n'
  else if e = 'r' then some '\r'
  else if e = 't' then some '\t'
  else none

/-- Decode a `\uXXXX` escape from its four hexadecimal digits. -/
def parseU (h1 h2 h3 h4 : Char) : Option Char :=
  match parseHexDigit h1, parseHexDigit h2, parseHexDigit h3, parseHexDigit h4 with
  | some a, some b, some c, some d => some (Char.ofNat (((a * 16 + b) * 16 + c) * 16 + d))
  | _, _, _, _ => none

/-- Decode the body of a JSON string up to and past its closing quote,
returning the decoded characters and the remaining input. -/
def parseStrBody : List Char → Option (List Char × List Char)
  | [] => none
  | c :: rest =>
    if c = '"' then some ([], rest)
    else if c = '\\' then
      match rest with
      | 'u' :: h1 :: h2 :: h3 :: h4 :: rest2 =>
        match parseU h1 h2 h3 h4 with
        | some d =>
          match parseStrBody rest2 with
          | some (s, r) => some (d :: s, r)
          | none => none
        | none => none
      | e :: rest2 =>
        match escDecode e with
        | some d =>
          match parseStrBody rest2 with
          | some (s, r) => some (d :: s, r)
          | none => none
        | none => none
      | [] => none
    else if c.toNat < 0x20 then none
    else
      match parseStrBody rest with
      | some (s, r) => some (c :: s, r)
      | none => none

/-- Parse a complete JSON string (opening quote included). -/
def parseString : List Char → Option (List Char × List Char)
  | [] => none
  | c :: rest => if c = '"' then parseStrBody rest else none

/-- Parse the members of a JSON object after its opening brace, the
leading whitespace already stripped, up to and past the closing brace.
The fuel only bounds the number of members; each member consumes at
least one character, so the input length is always enough fuel. -/
def parseMembers : Nat → List Char → Option (List (List Char × List Char) × List Char)
  | 0, _ => none
  | fuel + 1, s =>
    match parseString s with
    | none => none
    | some (k, r1) =>
      match skipWs r1 with
      | [] => none
      | c3 :: r3 =>
        if c3 = ':' then
          match parseString (skipWs r3) with
          | none => none
          | some (v, r5) =>
            match skipWs r5 with
            | [] => none
            | c6 :: r7 =>
              if c6 = ',' then
                match parseMembers fuel (skipWs r7) with
                | some (ms, rest') => some ((k, v) :: ms, rest')
                | none => none
              else if c6 = rbrace then some ([(k, v)], r7)
              else none
        else none

/-- Parse a whole document holding one JSON object of strings, with
nothing but whitespace after it. -/
def parseTop (s : List Char) : Option (List (List Char × List Char)) :=
  match skipWs s with
  | c :: rest =>
    if c = lbrace then
      match skipWs rest with
      | d :: rest2 =>
        if d = rbrace then (if skipWs rest2 = [] then some [] else none)
        else
          match parseMembers (d :: rest2).length (d :: rest2) with
          | some (ms, rest3) => if skipWs rest3 = [] then some ms else none
          | none => none
      | [] => none
    else none
  | [] => none

/-! ## Dictionary lemmas -/

theorem dictLookup_insert {β : Type} (l : List (Char × β)) (k k' : Char) (v : β) :
    dictLookup (dictInsert l k v) k' = if k = k' then some v else dictLookup l k' := by
  induction l with
  | nil => simp [dictInsert, dictLookup]
  | cons p rest ih =>
    obtain ⟨a, b⟩ := p
    by_cases hak : a = k
    · subst hak
      simp only [dictInsert, if_pos rfl]
      by_cases hk' : a = k' <;> simp [dictLookup, hk']
    · simp only [dictInsert, if_neg hak]
      by_cases hk' : a = k'
      · subst hk'
        have : k ≠ a := fun h => hak h.symm
        simp [dictLookup, this]
      · simp [dictLookup, hk', ih]

theorem mem_setAdd_self (s : List Char) (c : Char) : c ∈ setAdd s c := by
  unfold setAdd
  by_cases h : c ∈ s <;> simp [h]

theorem mem_setAdd_of_mem {s : List Char} {x : Char} (c : Char) (h : x ∈ s) :
    x ∈ setAdd s c := by
  unfold setAdd
  by_cases hc : c ∈ s <;> simp [hc, h]

/-! ## The mapper loop -/

theorem runMapper_cons (st : MapState) (p : Char × Char) (rest : List (Char × Char)) :
    runMapper st (p :: rest) = runMapper (processIndex st p) rest := rfl

theorem runMapper_append (st : MapState) (l₁ l₂ : List (Char × Char)) :
    runMapper st (l₁ ++ l₂) = runMapper (runMapper st l₁) l₂ := by
  simp [runMapper, List.foldl_append]

/-- The target of the first aligned pair for a given source character,
ignoring newline-skipped pairs: the "first-seen" value. -/
def firstTarget : List (Char × Char) → Char → Option Char
  | [], _ => none
  | (a, b) :: rest, c =>
    if a = '\n' ∨ b = '\n' then firstTarget rest c
    else if a = c then some b else firstTarget rest c

/-- Left-biased choice on options. -/
def optOr : Option Char → Option Char → Option Char
  | some v, _ => some v
  | none, o => o

/-- The mapping, after running the loop, holds for each character its
value in the starting state if any, and otherwise the first-seen target
among the processed pairs: conflicting later pairs never overwrite it. -/
theorem mapLookup_run (pairs : List (Char × Char)) (st : MapState) (c : Char) :
    dictLookup (runMapper st pairs).charMap c =
      optOr (dictLookup st.charMap c) (firstTarget pairs c) := by
  induction pairs generalizing st with
  | nil =>
    cases h : dictLookup st.charMap c <;> simp [runMapper, firstTarget, optOr, h]
  | cons p rest ih =>
    obtain ⟨a, b⟩ := p
    rw [runMapper_cons, ih]
    by_cases ha : a = '\n'
    · simp [processIndex, ha, firstTarget]
    by_cases hb : b = '\n'
    · simp [processIndex, ha, hb, firstTarget]
    have hft : firstTarget ((a, b) :: rest) c =
        if a = c then some b else firstTarget rest c := by
      simp [firstTarget, ha, hb]
    rw [hft]
    cases hm : dictLookup st.charMap a with
    | none =>
      have hstep : processIndex st (a, b) = { st with charMap := dictInsert st.charMap a b } := by
        simp [processIndex, ha, hb, hm]
      rw [hstep]
      by_cases hac : a = c
      · subst hac
        simp [dictLookup_insert, hm, optOr]
      · simp [dictLookup_insert, hac]
    | some v =>
      by_cases hv : v = b
      · have hstep : processIndex st (a, b) =
            { st with charMap := dictInsert st.charMap a b } := by
          simp [processIndex, ha, hb, hm, hv]
        rw [hstep]
        by_cases hac : a = c
        · subst hac
          simp [dictLookup_insert, hm, hv, optOr]
        · simp [dictLookup_insert, hac]
      · have hstep : (processIndex st (a, b)).charMap = st.charMap := by
          simp [processIndex, ha, hb, hm, hv]
        rw [hstep]
        by_cases hac : a = c
        · subst hac
          simp [hm, optOr]
        · simp [hac]

/-- The set the conflict branch starts from: the already-recorded
conflict set, or the singleton of the currently mapped value
(`set([char_map[char_a]])`, src/wa2_gen_map.py line 62). -/
def conflictBase (st : MapState) (a v : Char) : List Char :=
  match dictLookup st.conflicts a with
  | none => [v]
  | some s => s

/-- Unfolding of the conflict branch of `processIndex`. -/
theorem processIndex_conflict {st : MapState} {a b v : Char}
    (ha : a ≠ '\n') (hb : b ≠ '\n')
    (hm : dictLookup st.charMap a = some v) (hne : v ≠ b) :
    (processIndex st (a, b)).charMap = st.charMap ∧
      (processIndex st (a, b)).conflicts =
        dictInsert st.conflicts a (setAdd (conflictBase st a v) b) := by
  constructor <;> simp [processIndex, ha, hb, hm, hne, conflictBase]

/-- One step never removes an element from a conflict set. -/
theorem conflictMem_step (st : MapState) (p : Char × Char) {c x : Char} {s : List Char}
    (hl : dictLookup st.conflicts c = some s) (hx : x ∈ s) :
    ∃ s', dictLookup (processIndex st p).conflicts c = some s' ∧ x ∈ s' := by
  obtain ⟨a, b⟩ := p
  by_cases ha : a = '\n'
  · exact ⟨s, by simp [processIndex, ha, hl], hx⟩
  by_cases hb : b = '\n'
  · exact ⟨s, by simp [processIndex, ha, hb, hl], hx⟩
  cases hm : dictLookup st.charMap a with
  | none => exact ⟨s, by simp [processIndex, ha, hb, hm, hl], hx⟩
  | some v =>
    by_cases hv : v = b
    · exact ⟨s, by simp [processIndex, ha, hb, hm, hv, hl], hx⟩
    · rw [(processIndex_conflict ha hb hm hv).2, dictLookup_insert]
      by_cases hac : a = c
      · subst hac
        refine ⟨setAdd (conflictBase st a v) b, by simp, ?_⟩
        have hbase : conflictBase st a v = s := by simp [conflictBase, hl]
        rw [hbase]
        exact mem_setAdd_of_mem b hx
      · exact ⟨s, by simp [hac, hl], hx⟩

/-- Running the loop never removes an element from a conflict set. -/
theorem conflictMem_run (pairs : List (Char × Char)) (st : MapState) {c x : Char}
    {s : List Char} (hl : dictLookup st.conflicts c = some s) (hx : x ∈ s) :
    ∃ s', dictLookup (runMapper st pairs).conflicts c = some s' ∧ x ∈ s' := by
  induction pairs generalizing st s with
  | nil => exact ⟨s, hl, hx⟩
  | cons p rest ih =>
    obtain ⟨s₁, hl₁, hx₁⟩ := conflictMem_step st p hl hx
    rw [runMapper_cons]
    exact ih (processIndex st p) hl₁ hx₁

/-- Invariant tying the two structures together: every recorded conflict
set belongs to a mapped character, holds the mapped value, and holds at
least two distinct characters. -/
def ConflictInv (st : MapState) : Prop :=
  ∀ c s, dictLookup st.conflicts c = some s →
    ∃ v, dictLookup st.charMap c = some v ∧ v ∈ s ∧ ∃ y ∈ s, y ≠ v

theorem conflictInv_init : ConflictInv initState := by
  intro c s h
  simp [initState, dictLookup] at h

theorem conflictInv_step {st : MapState} (p : Char × Char) (hinv : ConflictInv st) :
    ConflictInv (processIndex st p) := by
  obtain ⟨a, b⟩ := p
  by_cases ha : a = '\n'
  · simpa [processIndex, ha] using hinv
  by_cases hb : b = '\n'
  · simpa [processIndex, ha, hb] using hinv
  cases hm : dictLookup st.charMap a with
  | none =>
    have hstep : processIndex st (a, b) = { st with charMap := dictInsert st.charMap a b } := by
      simp [processIndex, ha, hb, hm]
    rw [hstep]
    intro c s h
    obtain ⟨v, hv, hvs, hy⟩ := hinv c s h
    refine ⟨v, ?_, hvs, hy⟩
    rw [dictLookup_insert]
    by_cases hac : a = c
    · rw [hac] at hm; rw [hm] at hv; exact absurd hv (by simp)
    · simp [hac, hv]
  | some v =>
    by_cases hvb : v = b
    · have hstep : processIndex st (a, b) =
          { st with charMap := dictInsert st.charMap a b } := by
        simp [processIndex, ha, hb, hm, hvb]
      rw [hstep]
      intro c s h
      obtain ⟨w, hw, hws, hy⟩ := hinv c s h
      refine ⟨w, ?_, hws, hy⟩
      rw [dictLookup_insert]
      by_cases hac : a = c
      · rw [hac] at hm; rw [hm] at hw
        have hvw : v = w := by injection hw
        simp [hac, ← hvw, hvb]
      · simp [hac, hw]
    · intro c s h
      rw [(processIndex_conflict ha hb hm hvb).2, dictLookup_insert] at h
      rw [(processIndex_conflict ha hb hm hvb).1]
      by_cases hac : a = c
      · rw [if_pos hac] at h
        rw [← hac]
        refine ⟨v, hm, ?_⟩
        have hs : s = setAdd (conflictBase st a v) b := by injection h.symm
        subst hs
        cases hcur : dictLookup st.conflicts a with
        | none =>
          have hbase : conflictBase st a v = [v] := by simp [conflictBase, hcur]
          rw [hbase]
          exact ⟨mem_setAdd_of_mem b (by simp), b, mem_setAdd_self _ b,
            fun hbv => hvb hbv.symm⟩
        | some s₀ =>
          have hbase : conflictBase st a v = s₀ := by simp [conflictBase, hcur]
          rw [hbase]
          obtain ⟨w, hw, hws, -⟩ := hinv a s₀ hcur
          have hwv : w = v := by rw [hm] at hw; exact (Option.some.inj hw).symm
          exact ⟨mem_setAdd_of_mem b (hwv ▸ hws), b, mem_setAdd_self _ b,
            fun hbv => hvb hbv.symm⟩
      · rw [if_neg hac] at h
        exact hinv c s h

theorem conflictInv_run (pairs : List (Char × Char)) {st : MapState}
    (hinv : ConflictInv st) : ConflictInv (runMapper st pairs) := by
  induction pairs generalizing st with
  | nil => exact hinv
  | cons p rest ih =>
    rw [runMapper_cons]
    exact ih (conflictInv_step p hinv)

/-- Processing a pair whose source character is already mapped to a
different target records both the mapped value and the new target in
the conflict set of that character. -/
theorem conflict_create {st : MapState} {a b v : Char}
    (ha : a ≠ '\n') (hb : b ≠ '\n')
    (hm : dictLookup st.charMap a = some v) (hne : v ≠ b)
    (hinv : ConflictInv st) :
    ∃ s, dictLookup (processIndex st (a, b)).conflicts a = some s ∧ v ∈ s ∧ b ∈ s := by
  rw [(processIndex_conflict ha hb hm hne).2, dictLookup_insert, if_pos rfl]
  cases hcur : dictLookup st.conflicts a with
  | none =>
    have hbase : conflictBase st a v = [v] := by simp [conflictBase, hcur]
    rw [hbase]
    exact ⟨_, rfl, mem_setAdd_of_mem b (by simp), mem_setAdd_self _ b⟩
  | some s₀ =>
    have hbase : conflictBase st a v = s₀ := by simp [conflictBase, hcur]
    rw [hbase]
    obtain ⟨w, hw, hws, -⟩ := hinv a s₀ hcur
    have hwv : w = v := by rw [hm] at hw; exact (Option.some.inj hw).symm
    exact ⟨_, rfl, mem_setAdd_of_mem b (hwv ▸ hws), mem_setAdd_self _ b⟩

/-! ## firstTarget and zip lemmas -/

/-- Truncating both inputs to the common length does not change the
aligned pairs. -/
theorem zip_take_min (A B : List Char) :
    (A.take (min A.length B.length)).zip (B.take (min A.length B.length)) = A.zip B := by
  induction A generalizing B with
  | nil => simp
  | cons a A' ih =>
    cases B with
    | nil => simp
    | cons b B' =>
      simp only [List.length_cons, List.zip_cons_cons]
      have hmin : min (A'.length + 1) (B'.length + 1) = min A'.length B'.length + 1 := by
        omega
      rw [hmin]
      simp only [List.take_succ_cons, List.zip_cons_cons]
      rw [ih B']

/-- Taking a prefix of the aligned pairs is aligning the prefixes. -/
theorem zip_take_eq (A B : List Char) (n : Nat) :
    (A.zip B).take n = (A.take n).zip (B.take n) := by
  induction A generalizing B n with
  | nil => simp
  | cons a A' ih =>
    cases B with
    | nil => simp
    | cons b B' =>
      cases n with
      | zero => simp
      | succ m =>
        simp only [List.zip_cons_cons, List.take_succ_cons]
        rw [ih B' m]

/-- For newline-free inputs, the first-seen target of the character at a
first-occurrence index is the aligned target at that index. -/
theorem firstTarget_zip (A B : List Char) (i : Nat) (hiA : i < A.length)
    (hiB : i < B.length) (hA : '\n' ∉ A) (hB : '\n' ∉ B)
    (hfirst : ∀ k (hk : k < i), A.get ⟨k, hk.trans hiA⟩ ≠ A.get ⟨i, hiA⟩) :
    firstTarget (A.zip B) (A.get ⟨i, hiA⟩) = some (B.get ⟨i, hiB⟩) := by
  induction A generalizing B i with
  | nil => simp at hiA
  | cons a A' ih =>
    cases B with
    | nil => simp at hiB
    | cons b B' =>
      have ha : a ≠ '\n' := fun h => hA (h ▸ List.mem_cons_self a A')
      have hb : b ≠ '\n' := fun h => hB (h ▸ List.mem_cons_self b B')
      cases i with
      | zero =>
        simp only [List.zip_cons_cons, firstTarget, List.get]
        simp [ha, hb]
      | succ k =>
        have hkA : k < A'.length := Nat.succ_lt_succ_iff.mp hiA
        have hkB : k < B'.length := Nat.succ_lt_succ_iff.mp hiB
        have hne : a ≠ A'.get ⟨k, hkA⟩ := by
          have := hfirst 0 (Nat.succ_pos k)
          simpa [List.get] using this
        have hA' : '\n' ∉ A' := fun h => hA (List.mem_cons_of_mem a h)
        have hB' : '\n' ∉ B' := fun h => hB (List.mem_cons_of_mem b h)
        have hfirst' : ∀ m (hm : m < k),
            A'.get ⟨m, hm.trans hkA⟩ ≠ A'.get ⟨k, hkA⟩ := by
          intro m hm
          have := hfirst (m + 1) (Nat.succ_lt_succ hm)
          simpa [List.get] using this
        simp only [List.zip_cons_cons, firstTarget, List.get]
        simp only [ha, hb, or_self, if_false]
        rw [if_neg hne]
        exact ih B' k hkA hkB hA' hB' hfirst'

/-- Every first-seen target comes from some aligned, newline-free pair. -/
theorem firstTarget_mem (pairs : List (Char × Char)) (c v : Char)
    (h : firstTarget pairs c = some v) :
    ∃ i, ∃ (hi : i < pairs.length),
      pairs.get ⟨i, hi⟩ = (c, v) ∧ c ≠ '\n' ∧ v ≠ '\n' := by
  induction pairs with
  | nil => simp [firstTarget] at h
  | cons p rest ih =>
    obtain ⟨a, b⟩ := p
    by_cases hnl : a = '\n' ∨ b = '\n'
    · rw [firstTarget, if_pos hnl] at h
      obtain ⟨i, hi, hp, hc, hv⟩ := ih h
      exact ⟨i + 1, Nat.succ_lt_succ hi, hp, hc, hv⟩
    · rw [firstTarget, if_neg hnl] at h
      push_neg at hnl
      by_cases hac : a = c
      · have hbv : b = v := Option.some.inj (by rwa [if_pos hac] at h)
        exact ⟨0, Nat.succ_pos _, by simp [List.get, hac, hbv],
          hac ▸ hnl.1, hbv ▸ hnl.2⟩
      · rw [if_neg hac] at h
        obtain ⟨i, hi, hp, hc, hv⟩ := ih h
        exact ⟨i + 1, Nat.succ_lt_succ hi, hp, hc, hv⟩

theorem optOr_none (o : Option Char) : optOr none o = o := rfl

/-- Claim C1: for every pair of equal-length newline-free inputs, the
mapper assigns `mapping[A[i]] = B[i]` at the first index `i` where
`A[i]` occurs, and every later index `j` with `A[j] = A[i]` and
`B[j] ≠ B[i]` adds `B[j]`, together with the originally mapped
character `B[i]`, to the conflict set of `A[i]`, while the mapping of
`A[i]` stays `B[i]` (first-seen value wins). -/
theorem c1_first_seen_wins (A B : List Char) (hlen : A.length = B.length)
    (hA : '\n' ∉ A) (hB : '\n' ∉ B) (i : Nat) (hiA : i < A.length)
    (hfirst : ∀ k (hk : k < i), A.get ⟨k, hk.trans hiA⟩ ≠ A.get ⟨i, hiA⟩) :
    dictLookup (buildMapping A B).charMap (A.get ⟨i, hiA⟩) =
      some (B.get ⟨i, hlen ▸ hiA⟩) ∧
    ∀ j (hjA : j < A.length), i < j → A.get ⟨j, hjA⟩ = A.get ⟨i, hiA⟩ →
      B.get ⟨j, hlen ▸ hjA⟩ ≠ B.get ⟨i, hlen ▸ hiA⟩ →
      ∃ s, dictLookup (buildMapping A B).conflicts (A.get ⟨i, hiA⟩) = some s ∧
        B.get ⟨j, hlen ▸ hjA⟩ ∈ s ∧ B.get ⟨i, hlen ▸ hiA⟩ ∈ s := by
  have hiB : i < B.length := hlen ▸ hiA
  constructor
  · rw [buildMapping, mapLookup_run,
      firstTarget_zip A B i hiA hiB hA hB hfirst]
    rfl
  · intro j hjA hij haj hbj
    have hjB : j < B.length := hlen ▸ hjA
    have hjP : j < (A.zip B).length := by
      rw [List.length_zip]; omega
    have hsplit : A.zip B = (A.zip B).take j ++ (A.zip B)[j] :: (A.zip B).drop (j + 1) := by
      conv_lhs => rw [← List.take_append_drop j (A.zip B)]
      rw [List.drop_eq_getElem_cons hjP]
    have hPj : (A.zip B)[j] = (A.get ⟨i, hiA⟩, B.get ⟨j, hjB⟩) := by
      rw [List.getElem_zip, ← haj]
      simp [List.get_eq_getElem]
    have hiA' : i < (A.take j).length := by simp [List.length_take]; omega
    have hiB' : i < (B.take j).length := by simp [List.length_take]; omega
    have hgetA : (A.take j).get ⟨i, hiA'⟩ = A.get ⟨i, hiA⟩ := by
      simp [List.get_eq_getElem, List.getElem_take]
    have hgetB : (B.take j).get ⟨i, hiB'⟩ = B.get ⟨i, hiB⟩ := by
      simp [List.get_eq_getElem, List.getElem_take]
    have hmapj : dictLookup (runMapper initState ((A.zip B).take j)).charMap
        (A.get ⟨i, hiA⟩) = some (B.get ⟨i, hiB⟩) := by
      rw [mapLookup_run, zip_take_eq]
      have hAt : '\n' ∉ A.take j := fun h => hA (List.take_subset j A h)
      have hBt : '\n' ∉ B.take j := fun h => hB (List.take_subset j B h)
      have hfirst' : ∀ k (hk : k < i),
          (A.take j).get ⟨k, hk.trans hiA'⟩ ≠ (A.take j).get ⟨i, hiA'⟩ := by
        intro k hk
        have h1 : (A.take j).get ⟨k, hk.trans hiA'⟩ = A.get ⟨k, hk.trans hiA⟩ := by
          simp [List.get_eq_getElem, List.getElem_take]
        rw [h1, hgetA]
        exact hfirst k hk
      have hft := firstTarget_zip (A.take j) (B.take j) i hiA' hiB' hAt hBt hfirst'
      rw [hgetA, hgetB] at hft
      rw [hft]
      rfl
    have hinvj : ConflictInv (runMapper initState ((A.zip B).take j)) :=
      conflictInv_run _ conflictInv_init
    have haNl : A.get ⟨i, hiA⟩ ≠ '\n' := by
      intro heq
      exact hA (heq ▸ A.get_mem _ _)
    have hbNl : B.get ⟨j, hjB⟩ ≠ '\n' := by
      intro heq
      exact hB (heq ▸ B.get_mem _ _)
    obtain ⟨s₀, hs₀, hvmem, hbmem⟩ :=
      conflict_create haNl hbNl hmapj (Ne.symm hbj) hinvj
    obtain ⟨s₁, hs₁, hv1⟩ := conflictMem_run ((A.zip B).drop (j + 1)) _ hs₀ hvmem
    obtain ⟨s₂, hs₂, hb2⟩ := conflictMem_run ((A.zip B).drop (j + 1)) _ hs₀ hbmem
    have hfinal : buildMapping A B =
        runMapper (processIndex (runMapper initState ((A.zip B).take j))
          (A.get ⟨i, hiA⟩, B.get ⟨j, hjB⟩)) ((A.zip B).drop (j + 1)) := by
      rw [buildMapping]
      conv_lhs => rw [hsplit]
      rw [runMapper_append, runMapper_cons, hPj]
    have hs12 : s₁ = s₂ := by
      rw [hs₁] at hs₂
      exact Option.some.inj hs₂
    refine ⟨s₁, ?_, hs12 ▸ hb2, hv1⟩
    rw [hfinal]
    exact hs₁

/-- Concrete instance of C1 at `A = "aba"`, `B = "xyz"`, `i = 0`,
`j = 2`. -/
theorem c1_first_seen_wins_witness :
    dictLookup (buildMapping ['a', 'b', 'a'] ['x', 'y', 'z']).charMap 'a' = some 'x' ∧
    ∃ s, dictLookup (buildMapping ['a', 'b', 'a'] ['x', 'y', 'z']).conflicts 'a' = some s ∧
      'z' ∈ s ∧ 'x' ∈ s := by
  have h := c1_first_seen_wins ['a', 'b', 'a'] ['x', 'y', 'z'] rfl
    (by decide) (by decide) 0 (by decide) (fun k hk => absurd hk (by omega))
  exact ⟨h.1, h.2 2 (by decide) (by decide) (by decide) (by decide)⟩

/-- Claim C4: every key of the produced mapping, and every key of the
conflict records, is a source character at an aligned index below both
lengths at which neither aligned character is a newline; moreover an
index whose source or target character is a newline is skipped outright,
leaving the whole state — every mapping entry and every conflict
record — unchanged, so no entry is ever created or modified from such
an index. -/
theorem c4_keys_from_aligned_nonnewline (A B : List Char) (c : Char) :
    (∀ v, dictLookup (buildMapping A B).charMap c = some v →
      ∃ i, ∃ (h1 : i < A.length) (h2 : i < B.length),
        A.get ⟨i, h1⟩ = c ∧ A.get ⟨i, h1⟩ ≠ '\n' ∧ B.get ⟨i, h2⟩ ≠ '\n') ∧
    (∀ s, dictLookup (buildMapping A B).conflicts c = some s →
      ∃ i, ∃ (h1 : i < A.length) (h2 : i < B.length),
        A.get ⟨i, h1⟩ = c ∧ A.get ⟨i, h1⟩ ≠ '\n' ∧ B.get ⟨i, h2⟩ ≠ '\n') ∧
    ∀ (st : MapState) (a b : Char), a = '\n' ∨ b = '\n' → processIndex st (a, b) = st := by
  have key : ∀ v, dictLookup (buildMapping A B).charMap c = some v →
      ∃ i, ∃ (h1 : i < A.length) (h2 : i < B.length),
        A.get ⟨i, h1⟩ = c ∧ A.get ⟨i, h1⟩ ≠ '\n' ∧ B.get ⟨i, h2⟩ ≠ '\n' := by
    intro v hv
    rw [buildMapping, mapLookup_run] at hv
    have hft : firstTarget (A.zip B) c = some v := hv
    obtain ⟨i, hi, hp, hc, hvn⟩ := firstTarget_mem _ _ _ hft
    have h1 : i < A.length := by rw [List.length_zip] at hi; omega
    have h2 : i < B.length := by rw [List.length_zip] at hi; omega
    have hget : (A.zip B).get ⟨i, hi⟩ = (A.get ⟨i, h1⟩, B.get ⟨i, h2⟩) := by
      simp [List.get_eq_getElem, List.getElem_zip]
    rw [hget] at hp
    have hpa : A.get ⟨i, h1⟩ = c := congrArg Prod.fst hp
    have hpb : B.get ⟨i, h2⟩ = v := congrArg Prod.snd hp
    exact ⟨i, h1, h2, hpa, by rw [hpa]; exact hc, by rw [hpb]; exact hvn⟩
  refine ⟨key, ?_, ?_⟩
  · intro s hs
    have hinv : ConflictInv (buildMapping A B) := conflictInv_run _ conflictInv_init
    obtain ⟨v, hv, -, -⟩ := hinv c s hs
    exact key v hv
  · intro st a b hnl
    rcases hnl with h | h
    · simp [processIndex, h]
    · simp [processIndex, h]

/-- Concrete instance of C4 at `A = "a"`, `B = "x"`, together with the
newline-skip equations on a concrete state. -/
theorem c4_keys_from_aligned_nonnewline_witness :
    (∃ i, ∃ (h1 : i < (['a'] : List Char).length) (h2 : i < (['x'] : List Char).length),
      (['a'] : List Char).get ⟨i, h1⟩ = 'a' ∧ (['a'] : List Char).get ⟨i, h1⟩ ≠ '\n' ∧
      (['x'] : List Char).get ⟨i, h2⟩ ≠ '\n') ∧
    processIndex ⟨[('a', 'x')], []⟩ ('\n', 'q') = ⟨[('a', 'x')], []⟩ ∧
    processIndex ⟨[('a', 'x')], []⟩ ('a', '\n') = ⟨[('a', 'x')], []⟩ :=
  ⟨(c4_keys_from_aligned_nonnewline ['a'] ['x'] 'a').1 'x' (by decide),
    (c4_keys_from_aligned_nonnewline ['a'] ['x'] 'a').2.2 ⟨[('a', 'x')], []⟩ '\n' 'q'
      (Or.inl rfl),
    (c4_keys_from_aligned_nonnewline ['a'] ['x'] 'a').2.2 ⟨[('a', 'x')], []⟩ 'a' '\n'
      (Or.inr rfl)⟩

/-- Claim C8: every conflict key is a mapping key, its conflict set
holds the mapped value, and the conflict set holds at least two
distinct characters. -/
theorem c8_conflict_record_shape (A B : List Char) (c : Char) (s : List Char)
    (h : dictLookup (buildMapping A B).conflicts c = some s) :
    (∃ v, dictLookup (buildMapping A B).charMap c = some v ∧ v ∈ s) ∧
    ∃ x ∈ s, ∃ y ∈ s, x ≠ y := by
  have hinv : ConflictInv (buildMapping A B) := conflictInv_run _ conflictInv_init
  obtain ⟨v, hv, hvs, y, hy, hyv⟩ := hinv c s h
  exact ⟨⟨v, hv, hvs⟩, y, hy, v, hvs, hyv⟩

/-- Concrete instance of C8 at `A = "aa"`, `B = "xy"`. -/
theorem c8_conflict_record_shape_witness :
    (∃ v, dictLookup (buildMapping ['a', 'a'] ['x', 'y']).charMap 'a' = some v ∧
      v ∈ ['x', 'y']) ∧
    ∃ x ∈ ['x', 'y'], ∃ y ∈ ['x', 'y'], x ≠ y :=
  c8_conflict_record_shape ['a', 'a'] ['x', 'y'] 'a' ['x', 'y'] (by decide)

/-- Claim C6: on inputs of different lengths the warning is emitted, no
error is raised, and mapping construction considers exactly the aligned
indices 0 .. min(len A, len B) - 1. -/
theorem c6_length_mismatch_warns_and_truncates (A B : List Char)
    (h : A.length ≠ B.length) :
    lengthWarning A B = true ∧
    (A.zip B).length = min A.length B.length ∧
    buildMapping A B =
      buildMapping (A.take (min A.length B.length)) (B.take (min A.length B.length)) := by
  refine ⟨by simp [lengthWarning, h], List.length_zip .., ?_⟩
  show runMapper initState (A.zip B) =
    runMapper initState ((A.take (min A.length B.length)).zip (B.take (min A.length B.length)))
  rw [zip_take_min]

/-- Concrete instance of C6 at `A` of length 5 and `B` of length 3. -/
theorem c6_length_mismatch_witness :
    lengthWarning ['a', 'b', 'c', 'd', 'e'] ['x', 'y', 'z'] = true ∧
    ((['a', 'b', 'c', 'd', 'e'] : List Char).zip (['x', 'y', 'z'] : List Char)).length =
      min (['a', 'b', 'c', 'd', 'e'] : List Char).length (['x', 'y', 'z'] : List Char).length ∧
    buildMapping ['a', 'b', 'c', 'd', 'e'] ['x', 'y', 'z'] =
      buildMapping
        ((['a', 'b', 'c', 'd', 'e'] : List Char).take
          (min (['a', 'b', 'c', 'd', 'e'] : List Char).length (['x', 'y', 'z'] : List Char).length))
        ((['x', 'y', 'z'] : List Char).take
          (min (['a', 'b', 'c', 'd', 'e'] : List Char).length (['x', 'y', 'z'] : List Char).length)) :=
  c6_length_mismatch_warns_and_truncates ['a', 'b', 'c', 'd', 'e'] ['x', 'y', 'z'] (by decide)

/-- Claim C7: on `A = "abcabc"`, `B = "xyzxyy"` the mapper produces
exactly the mapping a→x, b→y, c→z and exactly the conflict records
c → the set containing z and y. -/
theorem c7_concrete_scenario :
    (∀ c, dictLookup (buildMapping ['a', 'b', 'c', 'a', 'b', 'c']
        ['x', 'y', 'z', 'x', 'y', 'y']).charMap c =
      dictLookup [('a', 'x'), ('b', 'y'), ('c', 'z')] c) ∧
    ∀ c, (dictLookup (buildMapping ['a', 'b', 'c', 'a', 'b', 'c']
        ['x', 'y', 'z', 'x', 'y', 'y']).conflicts c).map List.toFinset =
      dictLookup [('c', ({'z', 'y'} : Finset Char))] c := by
  have h : buildMapping ['a', 'b', 'c', 'a', 'b', 'c'] ['x', 'y', 'z', 'x', 'y', 'y'] =
      ⟨[('a', 'x'), ('b', 'y'), ('c', 'z')], [('c', ['z', 'y'])]⟩ := by decide
  rw [h]
  refine ⟨fun c => rfl, fun c => ?_⟩
  by_cases hc : 'c' = c
  · have hfs : (['z', 'y'] : List Char).toFinset = ({'z', 'y'} : Finset Char) := by decide
    simp [dictLookup, hc, hfs]
  · simp [dictLookup, hc]

/-- Claim C9: only the exact character '\n' is treated as a newline; a
carriage return at an aligned position is not skipped and participates
in mapping entries and conflict records like any ordinary character. -/
theorem c9_only_lf_is_newline :
    (∀ (st : MapState) (b : Char), b ≠ '\n' → dictLookup st.charMap '\r' = none →
      dictLookup (processIndex st ('\r', b)).charMap '\r' = some b) ∧
    (∀ (st : MapState) (a : Char), a ≠ '\n' → dictLookup st.charMap a = none →
      dictLookup (processIndex st (a, '\r')).charMap a = some '\r') ∧
    (dictLookup (buildMapping ['\r', '\r'] ['x', 'y']).conflicts '\r').map List.toFinset =
      some ({'x', 'y'} : Finset Char) := by
  refine ⟨?_, ?_, by decide⟩
  · intro st b hb hnone
    have hstep : processIndex st ('\r', b) =
        { st with charMap := dictInsert st.charMap '\r' b } := by
      simp [processIndex, hb, hnone]
    rw [hstep]
    simp [dictLookup_insert]
  · intro st a ha hnone
    have hstep : processIndex st (a, '\r') =
        { st with charMap := dictInsert st.charMap a '\r' } := by
      simp [processIndex, ha, hnone]
    rw [hstep]
    simp [dictLookup_insert]

/-- Concrete instance of C9: a carriage return participates on both
sides of a fresh mapping entry. -/
theorem c9_only_lf_is_newline_witness :
    dictLookup (processIndex initState ('\r', 'x')).charMap '\r' = some 'x' ∧
    dictLookup (processIndex initState ('q', '\r')).charMap 'q' = some '\r' :=
  ⟨c9_only_lf_is_newline.1 initState 'x' (by decide) rfl,
    c9_only_lf_is_newline.2.1 initState 'q' (by decide) rfl⟩

/-- Claim C5: when reading either input fails, the operation returns a
failure result and aborts before any mapping is built, without creating
or writing the output file; the failure is a boolean result, not an
unhandled exception. -/
theorem c5_read_failure_aborts (contentA contentB : Option (List Char))
    (writeOk : Bool) (formatType : String)
    (h : contentA = none ∨ contentB = none) :
    createCharacterMapping contentA contentB writeOk formatType = ⟨false, none⟩ := by
  cases contentA with
  | none => rfl
  | some A =>
    cases contentB with
    | none => rfl
    | some B => rcases h with h | h <;> simp at h

/-- Concrete instance of C5: the first read failing. -/
theorem c5_read_failure_aborts_witness :
    createCharacterMapping none (some ['a']) true "json" = ⟨false, none⟩ :=
  c5_read_failure_aborts none (some ['a']) true "json" (Or.inl rfl)

/-- Claim C10: for a `format_type` other than "json" and "python", the
output file is still created and truncated, nothing is written to it,
and the function reports success. -/
theorem c10_unknown_format_empty_output (A B : List Char) (fmt : String)
    (h1 : fmt ≠ "json") (h2 : fmt ≠ "python") :
    createCharacterMapping (some A) (some B) true fmt = ⟨true, some []⟩ := by
  simp [createCharacterMapping, serializeOutput, h1, h2]

/-- Concrete instance of C10 at `format_type = "txt"`. -/
theorem c10_unknown_format_empty_output_witness :
    createCharacterMapping (some ['a']) (some ['x']) true "txt" = ⟨true, some []⟩ :=
  c10_unknown_format_empty_output ['a'] ['x'] "txt" (by decide) (by decide)

/-- Claim C2 evaluated at its failing input: a double-quote source
character passes through `repr(char)[1:-1]` unchanged, so the line the
"python" format emits for the mapping `{'"': 'x'}` holds three
consecutive double-quote characters — the emitted key literal is broken
rather than safely escaped. -/
theorem c2_quote_not_escaped :
    pyReprBody '"' = ['"'] ∧
    (buildMapping ['"'] ['x']).charMap = [('"', 'x')] ∧
    containsSeq ['"', '"', '"'] (pythonDump [('"', 'x')]) = true :=
  ⟨by decide, by decide, by decide⟩

/-! ## Round trip of the JSON serialization -/

theorem parseHexDigit_digitChar : ∀ n, n < 16 → parseHexDigit (Nat.digitChar n) = some n := by
  decide

theorem parseString_quote (x : List Char) : parseString ('"' :: x) = parseStrBody x := rfl

theorem parseStrBody_quote (x : List Char) : parseStrBody ('"' :: x) = some ([], x) := by
  rw [parseStrBody.eq_def]
  rfl

theorem parseStrBody_u (h1 h2 h3 h4 : Char) (rest2 : List Char) :
    parseStrBody ('\\' :: 'u' :: h1 :: h2 :: h3 :: h4 :: rest2) =
      match parseU h1 h2 h3 h4 with
      | some d =>
        match parseStrBody rest2 with
        | some (s, r) => some (d :: s, r)
        | none => none
      | none => none := by
  rw [parseStrBody.eq_def]
  rfl

theorem parseStrBody_cons (c : Char) (rest : List Char) (hq : c ≠ '"') (hbs : c ≠ '\\')
    (hctl : ¬ c.toNat < 0x20) :
    parseStrBody (c :: rest) =
      match parseStrBody rest with
      | some (s, r) => some (c :: s, r)
      | none => none := by
  rw [parseStrBody.eq_def]
  simp only [if_neg hq, if_neg hbs, if_neg hctl]

theorem parseStrBody_esc_bs (rest : List Char) :
    parseStrBody ('\\' :: '\\' :: rest) =
      match parseStrBody rest with
      | some (s, r) => some ('\\' :: s, r)
      | none => none := by
  rw [parseStrBody.eq_def]
  rfl

theorem parseStrBody_esc_quot (rest : List Char) :
    parseStrBody ('\\' :: '"' :: rest) =
      match parseStrBody rest with
      | some (s, r) => some ('"' :: s, r)
      | none => none := by
  rw [parseStrBody.eq_def]
  rfl

theorem parseStrBody_esc_b (rest : List Char) :
    parseStrBody ('\\' :: 'b' :: rest) =
      match parseStrBody rest with
      | some (s, r) => some ('\x08' :: s, r)
      | none => none := by
  rw [parseStrBody.eq_def]
  rfl

theorem parseStrBody_esc_f (rest : List Char) :
    parseStrBody ('\\' :: 'f' :: rest) =
      match parseStrBody rest with
      | some (s, r) => some ('\x0c' :: s, r)
      | none => none := by
  rw [parseStrBody.eq_def]
  rfl

theorem parseStrBody_esc_n (rest : List Char) :
    parseStrBody ('\\' :: 'n' :: rest) =
      match parseStrBody rest with
      | some (s, r) => some ('\n' :: s, r)
      | none => none := by
  rw [parseStrBody.eq_def]
  rfl

theorem parseStrBody_esc_r (rest : List Char) :
    parseStrBody ('\\' :: 'r' :: rest) =
      match parseStrBody rest with
      | some (s, r) => some ('\r' :: s, r)
      | none => none := by
  rw [parseStrBody.eq_def]
  rfl

theorem parseStrBody_esc_t (rest : List Char) :
    parseStrBody ('\\' :: 't' :: rest) =
      match parseStrBody rest with
      | some (s, r) => some ('\t' :: s, r)
      | none => none := by
  rw [parseStrBody.eq_def]
  rfl

/-- A `\u00XX` escape of a control character decodes back to it. -/
theorem parseU_control (c : Char) (h : c.toNat < 0x20) :
    parseU '0' '0' (Nat.digitChar (c.toNat / 16)) (Nat.digitChar (c.toNat % 16)) = some c := by
  have hhi : parseHexDigit (Nat.digitChar (c.toNat / 16)) = some (c.toNat / 16) :=
    parseHexDigit_digitChar _ (by omega)
  have hlo : parseHexDigit (Nat.digitChar (c.toNat % 16)) = some (c.toNat % 16) :=
    parseHexDigit_digitChar _ (by omega)
  unfold parseU
  rw [show parseHexDigit '0' = some 0 from rfl, hhi, hlo]
  have harith : (((0 * 16 + 0) * 16 + c.toNat / 16) * 16 + c.toNat % 16) = c.toNat := by
    omega
  simp only [harith, Char.ofNat_toNat]

/-- The JSON escaping of one character decodes back to that character:
the string reader undoes `jsonEscChar` exactly. -/
theorem parseStrBody_esc (c : Char) (rest : List Char) :
    parseStrBody (jsonEscChar c ++ '"' :: rest) = some ([c], rest) := by
  by_cases h1 : c = '\\'
  · subst h1
    rw [show jsonEscChar '\\' ++ '"' :: rest = '\\' :: '\\' :: '"' :: rest from rfl,
      parseStrBody_esc_bs, parseStrBody_quote]
  by_cases h2 : c = '"'
  · subst h2
    rw [show jsonEscChar '"' ++ '"' :: rest = '\\' :: '"' :: '"' :: rest from rfl,
      parseStrBody_esc_quot, parseStrBody_quote]
  by_cases h3 : c = '\x08'
  · subst h3
    rw [show jsonEscChar '\x08' ++ '"' :: rest = '\\' :: 'b' :: '"' :: rest from rfl,
      parseStrBody_esc_b, parseStrBody_quote]
  by_cases h4 : c = '\x0c'
  · subst h4
    rw [show jsonEscChar '\x0c' ++ '"' :: rest = '\\' :: 'f' :: '"' :: rest from rfl,
      parseStrBody_esc_f, parseStrBody_quote]
  by_cases h5 : c = '\n'
  · subst h5
    rw [show jsonEscChar '\n' ++ '"' :: rest = '\\' :: 'n' :: '"' :: rest from rfl,
      parseStrBody_esc_n, parseStrBody_quote]
  by_cases h6 : c = '\r'
  · subst h6
    rw [show jsonEscChar '\r' ++ '"' :: rest = '\\' :: 'r' :: '"' :: rest from rfl,
      parseStrBody_esc_r, parseStrBody_quote]
  by_cases h7 : c = '\t'
  · subst h7
    rw [show jsonEscChar '\t' ++ '"' :: rest = '\\' :: 't' :: '"' :: rest from rfl,
      parseStrBody_esc_t, parseStrBody_quote]
  by_cases h8 : c.toNat < 0x20
  · have hesc : jsonEscChar c =
        ['\\', 'u', '0', '0', Nat.digitChar (c.toNat / 16), Nat.digitChar (c.toNat % 16)] := by
      simp [jsonEscChar, h1, h2, h3, h4, h5, h6, h7, h8]
    rw [hesc]
    show parseStrBody ('\\' :: 'u' :: '0' :: '0' :: Nat.digitChar (c.toNat / 16) ::
      Nat.digitChar (c.toNat % 16) :: '"' :: rest) = some ([c], rest)
    rw [parseStrBody_u, parseU_control c h8, parseStrBody_quote]
  · have hesc : jsonEscChar c = [c] := by
      simp [jsonEscChar, h1, h2, h3, h4, h5, h6, h7, h8]
    rw [hesc]
    show parseStrBody (c :: '"' :: rest) = some ([c], rest)
    rw [parseStrBody_cons c _ h2 h1 h8, parseStrBody_quote]

/-- The tail of an emitted member after its two indent spaces and
opening quote: escaped key, quote, colon, space, quoted escaped value,
followed by `after`. -/
def entryBody (kv : Char × Char) (after : List Char) : List Char :=
  jsonEscChar kv.1 ++ '"' :: ':' :: ' ' :: '"' :: (jsonEscChar kv.2 ++ '"' :: after)

/-- The member part of the emitted object as the reader sees it after
whitespace: each member starts at its opening quote, members are
separated by `,\n` and two indent spaces, and the stream ends with the
newline and closing brace followed by `tail`. -/
def memberStream : Char × Char → List (Char × Char) → List Char → List Char
  | kv, [], tail => '"' :: entryBody kv ('\n' :: rbrace :: tail)
  | kv, kv' :: rest, tail =>
    '"' :: entryBody kv (',' :: '\n' :: ' ' :: ' ' :: memberStream kv' rest tail)

theorem jsonEntry_stream (kv : Char × Char) (after : List Char) :
    jsonEntry kv ++ after = ' ' :: ' ' :: '"' :: entryBody kv after := by
  simp [jsonEntry, entryBody, List.append_assoc]

theorem jsonMembers_stream (rest : List (Char × Char)) :
    ∀ (kv : Char × Char) (tail : List Char),
    jsonMembers kv rest ++ '\n' :: rbrace :: tail = ' ' :: ' ' :: memberStream kv rest tail := by
  induction rest with
  | nil =>
    intro kv tail
    rw [show jsonMembers kv [] = jsonEntry kv from rfl, jsonEntry_stream]
    rfl
  | cons kv' rest' ih =>
    intro kv tail
    rw [show jsonMembers kv (kv' :: rest') = jsonEntry kv ++ [',', '\n'] ++ jsonMembers kv' rest'
      from rfl]
    rw [List.append_assoc, List.append_assoc]
    rw [show ([',', '\n'] : List Char) ++ (jsonMembers kv' rest' ++ '\n' :: rbrace :: tail) =
      ',' :: '\n' :: (jsonMembers kv' rest' ++ '\n' :: rbrace :: tail) from rfl]
    rw [ih kv' tail, jsonEntry_stream]
    rfl

theorem memberStream_length (rest : List (Char × Char)) :
    ∀ (kv : Char × Char) (tail : List Char),
    rest.length < (memberStream kv rest tail).length := by
  induction rest with
  | nil => intro kv tail; simp [memberStream]
  | cons kv' rest' ih =>
    intro kv tail
    have := ih kv' tail
    simp only [memberStream, entryBody, List.length_cons, List.length_append]
    omega

theorem skipWs_nl (x : List Char) : skipWs ('\n' :: x) = skipWs x := by
  rw [skipWs.eq_def]
  rfl

theorem skipWs_space (x : List Char) : skipWs (' ' :: x) = skipWs x := by
  rw [skipWs.eq_def]
  rfl

theorem skipWs_quote (x : List Char) : skipWs ('"' :: x) = '"' :: x := by
  rw [skipWs.eq_def]
  rfl

theorem skipWs_colon (x : List Char) : skipWs (':' :: x) = ':' :: x := by
  rw [skipWs.eq_def]
  rfl

theorem skipWs_comma (x : List Char) : skipWs (',' :: x) = ',' :: x := by
  rw [skipWs.eq_def]
  rfl

theorem skipWs_rbrace (x : List Char) : skipWs (rbrace :: x) = rbrace :: x := by
  rw [skipWs.eq_def]
  rfl

theorem skipWs_lbrace (x : List Char) : skipWs (lbrace :: x) = lbrace :: x := by
  rw [skipWs.eq_def]
  rfl

theorem skipWs_memberStream (rest : List (Char × Char)) (kv : Char × Char)
    (tail : List Char) : skipWs (memberStream kv rest tail) = memberStream kv rest tail := by
  cases rest <;> simp [memberStream, skipWs_quote]

theorem parseMembers_succ (fuel : Nat) (s : List Char) :
    parseMembers (fuel + 1) s =
      match parseString s with
      | none => none
      | some (k, r1) =>
        match skipWs r1 with
        | [] => none
        | c3 :: r3 =>
          if c3 = ':' then
            match parseString (skipWs r3) with
            | none => none
            | some (v, r5) =>
              match skipWs r5 with
              | [] => none
              | c6 :: r7 =>
                if c6 = ',' then
                  match parseMembers fuel (skipWs r7) with
                  | some (ms, rest') => some ((k, v) :: ms, rest')
                  | none => none
                else if c6 = rbrace then some ([(k, v)], r7)
                else none
          else none := by
  rw [parseMembers.eq_def]

/-- The reader recovers every member, in order, from the emitted member
stream, leaving exactly the input that followed the closing brace. -/
theorem parseMembers_stream (rest : List (Char × Char)) :
    ∀ (kv : Char × Char) (fuel : Nat) (tail : List Char), rest.length < fuel →
    parseMembers fuel (memberStream kv rest tail) =
      some (([kv.1], [kv.2]) :: rest.map (fun p => ([p.1], [p.2])), tail) := by
  induction rest with
  | nil =>
    intro kv fuel tail hfuel
    obtain ⟨n, rfl⟩ : ∃ n, fuel = n + 1 := ⟨fuel - 1, by omega⟩
    rw [show memberStream kv [] tail = '"' :: entryBody kv ('\n' :: rbrace :: tail) from rfl]
    rw [parseMembers_succ, parseString_quote]
    simp only [entryBody]
    rw [parseStrBody_esc]
    simp only [skipWs_colon, skipWs_space, skipWs_quote, skipWs_nl, skipWs_rbrace,
      parseString_quote, parseStrBody_esc, reduceIte]
    rw [if_neg (show rbrace ≠ ',' from by decide)]
    rfl
  | cons kv' rest' ih =>
    intro kv fuel tail hfuel
    obtain ⟨n, rfl⟩ : ∃ n, fuel = n + 1 := ⟨fuel - 1, by omega⟩
    rw [show memberStream kv (kv' :: rest') tail =
      '"' :: entryBody kv (',' :: '\n' :: ' ' :: ' ' :: memberStream kv' rest' tail) from rfl]
    rw [parseMembers_succ, parseString_quote]
    simp only [entryBody]
    rw [parseStrBody_esc]
    simp only [skipWs_colon, skipWs_space, skipWs_quote, skipWs_nl, skipWs_comma,
      parseString_quote, parseStrBody_esc, reduceIte]
    rw [skipWs_memberStream]
    rw [ih kv' n tail (by simpa using hfuel)]
    simp [List.map]

/-- The continuation after one member in the stream: either the
separator and next member, or the closing of the object. -/
def memberAfter : List (Char × Char) → List Char → List Char
  | [], tail => '\n' :: rbrace :: tail
  | kv' :: rest, tail => ',' :: '\n' :: ' ' :: ' ' :: memberStream kv' rest tail

theorem memberStream_expand (kv : Char × Char) (rest : List (Char × Char))
    (tail : List Char) :
    memberStream kv rest tail = '"' :: entryBody kv (memberAfter rest tail) := by
  cases rest <;> simp [memberStream, memberAfter]

/-- Serializing any mapping in the JSON format and parsing the result
back yields exactly the original mapping, every key and value (single
characters, emitted as one-character strings) preserved. -/
theorem parseTop_jsonDump (m : List (Char × Char)) :
    parseTop (jsonDump m) = some (m.map fun p => ([p.1], [p.2])) := by
  cases m with
  | nil => decide
  | cons kv rest =>
    have h1 : jsonDump (kv :: rest) =
        (lbrace :: '\n' :: jsonMembers kv rest) ++ ['\n', rbrace] := by
      simp only [jsonDump]
    have hd : jsonDump (kv :: rest) =
        lbrace :: '\n' :: (' ' :: ' ' :: memberStream kv rest []) := by
      rw [h1, List.cons_append, List.cons_append, jsonMembers_stream rest kv []]
    rw [hd]
    simp only [parseTop]
    rw [skipWs_lbrace]
    simp only [skipWs_nl, skipWs_space, reduceIte]
    rw [skipWs_memberStream]
    rw [memberStream_expand]
    simp only [reduceIte]
    rw [if_neg (show ('"' : Char) ≠ rbrace from by decide)]
    rw [← memberStream_expand]
    rw [parseMembers_stream rest kv _ [] (memberStream_length rest kv [])]
    simp [List.map]
    decide

/-- Claim C3: serializing a mapping in the structured-data ("json")
format and parsing the result back yields a mapping equal to the
original, with all keys and values preserved exactly; non-ASCII
characters are emitted literally, not escaped. -/
theorem c3_structured_data_round_trip :
    (∀ m : List (Char × Char), parseTop (jsonDump m) = some (m.map fun p => ([p.1], [p.2]))) ∧
    ∀ c : Char, 0x80 ≤ c.toNat → jsonEscChar c = [c] := by
  refine ⟨parseTop_jsonDump, ?_⟩
  intro c hc
  have h1 : c ≠ '\\' := by rintro rfl; exact absurd hc (by decide)
  have h2 : c ≠ '"' := by rintro rfl; exact absurd hc (by decide)
  have h3 : c ≠ '\x08' := by rintro rfl; exact absurd hc (by decide)
  have h4 : c ≠ '\x0c' := by rintro rfl; exact absurd hc (by decide)
  have h5 : c ≠ '\n' := by rintro rfl; exact absurd hc (by decide)
  have h6 : c ≠ '\r' := by rintro rfl; exact absurd hc (by decide)
  have h7 : c ≠ '\t' := by rintro rfl; exact absurd hc (by decide)
  have h8 : ¬ c.toNat < 0x20 := by omega
  simp [jsonEscChar, h1, h2, h3, h4, h5, h6, h7, h8]

/-- Concrete instance of C3 with a CJK key and an escaped value. -/
theorem c3_structured_data_round_trip_witness :
    parseTop (jsonDump [('好', '\n')]) = some [(['好'], ['\n'])] ∧
    jsonEscChar '好' = ['好'] :=
  ⟨c3_structured_data_round_trip.1 [('好', '\n')],
    c3_structured_data_round_trip.2 '好' (by decide)⟩
